import Mathlib

/-!
Verification of the sample-detector geometry core of kikuchipy:
projection-center (PC) convention conversions, the EBSD detector's
gnomonic bounds, the moving-screen PC calibration and the geometrical
band / zone-axis simulator.  The repository snapshot ships only the
documentation notebooks of these components, so the definitions below
are modelled from the specification (and the formulas reproduced in the
notebooks), with exact rational arithmetic standing in for the floating
point of the implementation.
-/

namespace Kikuchipy

/-- Modelled from the spec: a projection-center triplet
`(PCx, PCy, PCz)`, dimensionless fractions of detector
width / height / distance, stored in the canonical ("Bruker")
convention.  The missing source is `kikuchipy.detectors` (only its
documentation notebooks are in the snapshot). -/
@[ext]
structure PC where
  x : ℚ
  y : ℚ
  z : ℚ
deriving DecidableEq, Repr

/-- Modelled from the spec: the set of recognized PC conventions,
`convention ∈ {tsl, oxford, bruker, emsoft4, emsoft5}`. -/
inductive Conv
  | tsl
  | oxford
  | bruker
  | emsoft4
  | emsoft5
deriving DecidableEq, Repr

/-- Modelled from the spec: the parameters some conversions need — the
unbinned pixel size `δ`, the binning factor `b`, and the detector
columns `sx` and rows `sy`. -/
structure ConvParams where
  delta : ℚ
  b : ℚ
  sx : ℚ
  sy : ℚ
deriving DecidableEq, Repr

/-- Modelled from the spec: the TSL (and Oxford) conversion
`[PCx, PCy, PCz] = [x*, 1 - y*, z*]`; the same map serves in both
directions since it is its own inverse. -/
def toTsl (p : PC) : PC :=
  ⟨p.x, 1 - p.y, p.z⟩

/-- Modelled from the spec: the EMsoft to Bruker (canonical) conversion
`PCx = 1/2 + v·xpc/(sx·b)`, `PCy = 1/2 − ypc/(sy·b)`,
`PCz = L/(sy·δ·b)`, with `v = -1` for EMsoft v5 and `+1` for v4. -/
def fromEmsoft (v : ℚ) (pr : ConvParams) (p : PC) : PC :=
  ⟨1 / 2 + v * p.x / (pr.sx * pr.b),
   1 / 2 - p.y / (pr.sy * pr.b),
   p.z / (pr.sy * pr.delta * pr.b)⟩

/-- Modelled from the spec: the canonical (Bruker) to EMsoft conversion,
obtained by solving the EMsoft to Bruker formulas algebraically for
`xpc`, `ypc` and `L` (using `v² = 1`). -/
def toEmsoft (v : ℚ) (pr : ConvParams) (p : PC) : PC :=
  ⟨v * (p.x - 1 / 2) * pr.sx * pr.b,
   (1 / 2 - p.y) * pr.sy * pr.b,
   p.z * pr.sy * pr.delta * pr.b⟩

/-- Modelled from the spec: `v = -1` for EMsoft v5 and `+1` for v4 (the
value is irrelevant for the other conventions). -/
def emsoftV : Conv → ℚ
  | Conv.emsoft5 => -1
  | _ => 1

/-- Modelled from the spec: conversion of a canonical (Bruker) triplet
into the view of a given convention. -/
def toConvention (c : Conv) (pr : ConvParams) (p : PC) : PC :=
  match c with
  | Conv.tsl => toTsl p
  | Conv.oxford => toTsl p
  | Conv.bruker => p
  | Conv.emsoft4 => toEmsoft (emsoftV Conv.emsoft4) pr p
  | Conv.emsoft5 => toEmsoft (emsoftV Conv.emsoft5) pr p

/-- Modelled from the spec: conversion of a triplet given in some
convention into the canonical (Bruker) form. -/
def fromConvention (c : Conv) (pr : ConvParams) (p : PC) : PC :=
  match c with
  | Conv.tsl => toTsl p
  | Conv.oxford => toTsl p
  | Conv.bruker => p
  | Conv.emsoft4 => fromEmsoft (emsoftV Conv.emsoft4) pr p
  | Conv.emsoft5 => fromEmsoft (emsoftV Conv.emsoft5) pr p

/-- Modelled from the spec: the EBSD detector value — shape
`(nrows, ncols)`, pixel size, binning, tilts, and the canonical PC of
one navigation point (a detector with a 1D or 2D navigation shape
carries one such triplet per navigation point and derives its bounds
pointwise). -/
structure EBSDDetector where
  nrows : ℕ
  ncols : ℕ
  pxSize : ℚ
  binning : ℚ
  tilt : ℚ
  sampleTilt : ℚ
  pc : PC
deriving DecidableEq, Repr

/-- Modelled from the spec: construction normalizes the supplied PC (in
the supplied convention) to canonical form immediately. -/
def mkDetector (nrows ncols : ℕ) (pxSize binning tilt sampleTilt : ℚ)
    (c : Conv) (pr : ConvParams) (p : PC) : EBSDDetector :=
  ⟨nrows, ncols, pxSize, binning, tilt, sampleTilt, fromConvention c pr p⟩

/-- Modelled from the spec: `pc_in(convention)` returns the stored
canonical PC converted into the requested convention. -/
def pcIn (det : EBSDDetector) (c : Conv) (pr : ConvParams) : PC :=
  toConvention c pr det.pc

end Kikuchipy

namespace Kikuchipy

/-- C1: Pattern-center conversion round trip: for every convention in
{tsl, oxford, bruker, emsoft4, emsoft5} and every PC triplet, with the
conversion parameters nonzero, `from_X (to_X p) = p` exactly (hence
within 1e-9); and the detector built with shape (60,60),
pc = [0.421, 0.779, 0.505] in the TSL convention, pixel size 70,
binning 8, tilt 0, sample tilt 70 returns [0.421, 0.779, 0.505] from
`pc_in "tsl"` exactly (hence within 1e-6). -/
theorem pc_conversion_round_trip (c : Conv) (pr : ConvParams) (p : PC)
    (hd : pr.delta ≠ 0) (hb : pr.b ≠ 0) (hsx : pr.sx ≠ 0) (hsy : pr.sy ≠ 0) :
    fromConvention c pr (toConvention c pr p) = p ∧
    pcIn (mkDetector 60 60 70 8 0 70 Conv.tsl ⟨70, 8, 60, 60⟩
      ⟨421 / 1000, 779 / 1000, 505 / 1000⟩) Conv.tsl ⟨70, 8, 60, 60⟩ =
      ⟨421 / 1000, 779 / 1000, 505 / 1000⟩ := by
  constructor
  · cases c <;>
      · ext <;>
          simp only [toConvention, fromConvention, toTsl, toEmsoft, fromEmsoft, emsoftV] <;>
          field_simp <;> ring
  · ext <;> norm_num [pcIn, mkDetector, fromConvention, toConvention, toTsl]

/-- Witness for C1 at the concrete convention emsoft5, parameters
(δ, b, sx, sy) = (2, 3, 5, 7) and PC (21/100, 8/25, 1/2). -/
theorem pc_conversion_round_trip_witness :
    fromConvention Conv.emsoft5 ⟨2, 3, 5, 7⟩
        (toConvention Conv.emsoft5 ⟨2, 3, 5, 7⟩ ⟨21 / 100, 8 / 25, 1 / 2⟩) =
      ⟨21 / 100, 8 / 25, 1 / 2⟩ ∧
    pcIn (mkDetector 60 60 70 8 0 70 Conv.tsl ⟨70, 8, 60, 60⟩
      ⟨421 / 1000, 779 / 1000, 505 / 1000⟩) Conv.tsl ⟨70, 8, 60, 60⟩ =
      ⟨421 / 1000, 779 / 1000, 505 / 1000⟩ :=
  pc_conversion_round_trip Conv.emsoft5 ⟨2, 3, 5, 7⟩ ⟨21 / 100, 8 / 25, 1 / 2⟩
    (by norm_num) (by norm_num) (by norm_num) (by norm_num)

end Kikuchipy

namespace Kikuchipy

/-- C4: TSL/Oxford conversion is an involution: the map sends
`[PCx, PCy, PCz]` to `[x*, 1 - y*, z*]`, and applying it twice returns
the original triplet exactly. -/
theorem tsl_conversion_involution (p : PC) :
    toTsl p = ⟨p.x, 1 - p.y, p.z⟩ ∧ toTsl (toTsl p) = p := by
  refine ⟨rfl, ?_⟩
  ext <;> simp [toTsl]

/-- C2: the EMsoft conversion formulas and the version sign: converting
an EMsoft triplet `(xpc, ypc, L)` into the canonical form follows
`PCx = 1/2 + v·xpc/(sx·b)`, `PCy = 1/2 − ypc/(sy·b)`,
`PCz = L/(sy·δ·b)` with `v = +1` for v4 and `-1` for v5; consequently
converting the same canonical PC into EMsoft with version v4 versus v5
yields different first components (the derived `xpc`) whenever that
derived `xpc` is nonzero. -/
theorem emsoft_conversion_version_sign (pr : ConvParams) (p : PC)
    (hx : (toConvention Conv.emsoft4 pr p).x ≠ 0) :
    (∀ q : PC, fromConvention Conv.emsoft4 pr q =
        ⟨1 / 2 + 1 * q.x / (pr.sx * pr.b), 1 / 2 - q.y / (pr.sy * pr.b),
          q.z / (pr.sy * pr.delta * pr.b)⟩ ∧
      fromConvention Conv.emsoft5 pr q =
        ⟨1 / 2 + (-1) * q.x / (pr.sx * pr.b), 1 / 2 - q.y / (pr.sy * pr.b),
          q.z / (pr.sy * pr.delta * pr.b)⟩) ∧
    (toConvention Conv.emsoft4 pr p).x ≠ (toConvention Conv.emsoft5 pr p).x := by
  refine ⟨fun q => ⟨rfl, rfl⟩, ?_⟩
  intro h
  apply hx
  have h5 : (toConvention Conv.emsoft5 pr p).x =
      -(toConvention Conv.emsoft4 pr p).x := by
    simp only [toConvention, toEmsoft, emsoftV]
    ring
  rw [h5] at h
  linarith [h]

/-- Witness for C2 at `pr = (2, 3, 5, 7)` and canonical
`p = (3/4, 1/3, 1/2)`, whose derived `xpc = (3/4 - 1/2)·5·3 ≠ 0`. -/
theorem emsoft_conversion_version_sign_witness :
    (toConvention Conv.emsoft4 ⟨2, 3, 5, 7⟩ ⟨3 / 4, 1 / 3, 1 / 2⟩).x ≠ 0 ∧
    (toConvention Conv.emsoft4 ⟨2, 3, 5, 7⟩ ⟨3 / 4, 1 / 3, 1 / 2⟩).x ≠
      (toConvention Conv.emsoft5 ⟨2, 3, 5, 7⟩ ⟨3 / 4, 1 / 3, 1 / 2⟩).x :=
  ⟨by norm_num [toConvention, toEmsoft, emsoftV],
    (emsoft_conversion_version_sign ⟨2, 3, 5, 7⟩ ⟨3 / 4, 1 / 3, 1 / 2⟩
      (by norm_num [toConvention, toEmsoft, emsoftV])).2⟩

/-- Modelled from the spec: the errors a conversion can raise —
`ConventionError` when a parameter a convention's conversion requires
is absent. -/
inductive ConvError
  | missingParameter
deriving DecidableEq, Repr

/-- Modelled from the spec: the optionally known conversion parameters
(unbinned pixel size `δ`, binning `b`, detector columns `sx`, rows
`sy`). -/
structure OptParams where
  delta : Option ℚ
  b : Option ℚ
  sx : Option ℚ
  sy : Option ℚ
deriving DecidableEq, Repr

/-- Modelled from the spec: the checked conversion entry point.
TSL/Oxford/Bruker conversions require no parameters; the EMsoft
conversions require all of `δ`, `b`, `sx`, `sy` and fail with
`ConventionError` when any of them is absent. -/
def pcInChecked (c : Conv) (op : OptParams) (p : PC) : Except ConvError PC :=
  match c with
  | Conv.tsl => Except.ok (toTsl p)
  | Conv.oxford => Except.ok (toTsl p)
  | Conv.bruker => Except.ok p
  | Conv.emsoft4 =>
    match op.delta, op.b, op.sx, op.sy with
    | some d, some b, some sx, some sy =>
      Except.ok (toEmsoft (emsoftV Conv.emsoft4) ⟨d, b, sx, sy⟩ p)
    | _, _, _, _ => Except.error ConvError.missingParameter
  | Conv.emsoft5 =>
    match op.delta, op.b, op.sx, op.sy with
    | some d, some b, some sx, some sy =>
      Except.ok (toEmsoft (emsoftV Conv.emsoft5) ⟨d, b, sx, sy⟩ p)
    | _, _, _, _ => Except.error ConvError.missingParameter

/-- C7: missing-parameter convention errors: an EMsoft conversion
(which requires `δ`, `b`, `sx` and `sy`) fails with `ConventionError`
when any of the four is absent, while the TSL and Oxford conversions
require none of them and always succeed. -/
theorem conversion_missing_parameter_errors (op : OptParams) (p : PC)
    (h : op.delta = none ∨ op.b = none ∨ op.sx = none ∨ op.sy = none) :
    pcInChecked Conv.emsoft4 op p = Except.error ConvError.missingParameter ∧
    pcInChecked Conv.emsoft5 op p = Except.error ConvError.missingParameter ∧
    pcInChecked Conv.tsl op p = Except.ok (toTsl p) ∧
    pcInChecked Conv.oxford op p = Except.ok (toTsl p) := by
  obtain ⟨d, b, sx, sy⟩ := op
  cases d <;> cases b <;> cases sx <;> cases sy <;>
    simp_all [pcInChecked]

/-- Witness for C7 with every parameter absent. -/
theorem conversion_missing_parameter_errors_witness :
    pcInChecked Conv.emsoft4 ⟨none, none, none, none⟩ ⟨1 / 2, 1 / 2, 1 / 2⟩ =
        Except.error ConvError.missingParameter ∧
    pcInChecked Conv.emsoft5 ⟨none, none, none, none⟩ ⟨1 / 2, 1 / 2, 1 / 2⟩ =
        Except.error ConvError.missingParameter ∧
    pcInChecked Conv.tsl ⟨none, none, none, none⟩ ⟨1 / 2, 1 / 2, 1 / 2⟩ =
        Except.ok (toTsl ⟨1 / 2, 1 / 2, 1 / 2⟩) ∧
    pcInChecked Conv.oxford ⟨none, none, none, none⟩ ⟨1 / 2, 1 / 2, 1 / 2⟩ =
        Except.ok (toTsl ⟨1 / 2, 1 / 2, 1 / 2⟩) :=
  conversion_missing_parameter_errors ⟨none, none, none, none⟩
    ⟨1 / 2, 1 / 2, 1 / 2⟩ (Or.inl rfl)

end Kikuchipy

namespace Kikuchipy

/-- Modelled from the spec: the detector-frame x coordinate of a pixel
column relative to the PC, `x_d = (col − PCx·ncols)·pixel_size·binning`. -/
def xDetC (det : EBSDDetector) (p : PC) (col : ℚ) : ℚ :=
  (col - p.x * det.ncols) * det.pxSize * det.binning

/-- Modelled from the spec: the detector-frame y coordinate of a pixel
row relative to the PC, `y_d = (PCy·nrows − row)·pixel_size·binning`. -/
def yDetC (det : EBSDDetector) (p : PC) (row : ℚ) : ℚ :=
  (p.y * det.nrows - row) * det.pxSize * det.binning

/-- Modelled from the spec: the detector-frame distance
`z_d = PCz·nrows·pixel_size·binning`. -/
def zDetC (det : EBSDDetector) (p : PC) : ℚ :=
  p.z * det.nrows * det.pxSize * det.binning

/-- Modelled from the spec: the gnomonic x coordinate `x_g = x_d / z_d`
of a pixel column. -/
def xGn (det : EBSDDetector) (p : PC) (col : ℚ) : ℚ :=
  xDetC det p col / zDetC det p

/-- Modelled from the spec: the gnomonic y coordinate `y_g = y_d / z_d`
of a pixel row. -/
def yGn (det : EBSDDetector) (p : PC) (row : ℚ) : ℚ :=
  yDetC det p row / zDetC det p

/-- Modelled from the spec: the squared radial gnomonic distance
`x_g² + y_g²` of the detector pixel `(col, row)` from the PC. -/
def cornerRsq (det : EBSDDetector) (p : PC) (col row : ℚ) : ℚ :=
  xGn det p col ^ 2 + yGn det p row ^ 2

/-- Modelled from the spec: per navigation point,
`(x_min, x_max, y_min, y_max)` of the gnomonic coordinates of the four
detector corners (the gnomonic x depends on the column only and the
gnomonic y on the row only). -/
def gnomonicBounds (det : EBSDDetector) (p : PC) : ℚ × ℚ × ℚ × ℚ :=
  (min (xGn det p 0) (xGn det p det.ncols),
   max (xGn det p 0) (xGn det p det.ncols),
   min (yGn det p det.nrows) (yGn det p 0),
   max (yGn det p det.nrows) (yGn det p 0))

/-- Modelled from the spec: the squared maximal radial distance from
the PC over the four detector corners; `r_max` itself is its square
root. -/
def rMaxSq (det : EBSDDetector) (p : PC) : ℚ :=
  max (max (cornerRsq det p 0 0) (cornerRsq det p det.ncols 0))
    (max (cornerRsq det p 0 det.nrows) (cornerRsq det p det.ncols det.nrows))

theorem sqrt_max_eq (a b : ℝ) :
    Real.sqrt (max a b) = max (Real.sqrt a) (Real.sqrt b) := by
  rcases le_total a b with h | h
  · rw [max_eq_right h, max_eq_right (Real.sqrt_le_sqrt h)]
  · rw [max_eq_left h, max_eq_left (Real.sqrt_le_sqrt h)]

/-- C3: gnomonic bounds computation: a detector pixel `(col, row)` has
detector-frame coordinates relative to the PC of
`x_d = (col − PCx·ncols)·pixel_size·binning`,
`y_d = (PCy·nrows − row)·pixel_size·binning`,
`z_d = PCz·nrows·pixel_size·binning`; its gnomonic coordinates are
`x_g = x_d/z_d` and `y_g = y_d/z_d`; the gnomonic bounds are the
min/max over the four detector corners of `(x_g, y_g)`, and `r_max` is
the maximum over the corners of `sqrt (x_g² + y_g²)`. -/
theorem gnomonic_bounds_spec (det : EBSDDetector) (p : PC) :
    (∀ col row : ℚ,
      xGn det p col =
        ((col - p.x * det.ncols) * det.pxSize * det.binning) /
          (p.z * det.nrows * det.pxSize * det.binning) ∧
      yGn det p row =
        ((p.y * det.nrows - row) * det.pxSize * det.binning) /
          (p.z * det.nrows * det.pxSize * det.binning)) ∧
    gnomonicBounds det p =
      (min (min (xGn det p 0) (xGn det p det.ncols))
          (min (xGn det p 0) (xGn det p det.ncols)),
        max (max (xGn det p 0) (xGn det p det.ncols))
          (max (xGn det p 0) (xGn det p det.ncols)),
        min (min (yGn det p 0) (yGn det p 0))
          (min (yGn det p det.nrows) (yGn det p det.nrows)),
        max (max (yGn det p 0) (yGn det p 0))
          (max (yGn det p det.nrows) (yGn det p det.nrows))) ∧
    Real.sqrt (rMaxSq det p) =
      max (max (Real.sqrt (cornerRsq det p 0 0))
          (Real.sqrt (cornerRsq det p det.ncols 0)))
        (max (Real.sqrt (cornerRsq det p 0 det.nrows))
          (Real.sqrt (cornerRsq det p det.ncols det.nrows))) := by
  refine ⟨fun col row => ⟨rfl, rfl⟩, ?_, ?_⟩
  · simp [gnomonicBounds, min_self, max_self, min_comm, max_comm]
  · rw [rMaxSq]
    push_cast [Rat.cast_max]
    rw [sqrt_max_eq, sqrt_max_eq, sqrt_max_eq]

end Kikuchipy

namespace Kikuchipy

theorem cornerRsq_eq_div (det : EBSDDetector) (p : PC) (col row : ℚ) :
    cornerRsq det p col row =
      (xDetC det p col ^ 2 + yDetC det p row ^ 2) / zDetC det p ^ 2 := by
  rw [cornerRsq, xGn, yGn, div_pow, div_pow, div_add_div_same]

theorem rMaxSq_as_div (det : EBSDDetector) (p : PC) :
    rMaxSq det p =
      max (max (xDetC det p 0 ^ 2 + yDetC det p 0 ^ 2)
          (xDetC det p det.ncols ^ 2 + yDetC det p 0 ^ 2))
        (max (xDetC det p 0 ^ 2 + yDetC det p det.nrows ^ 2)
          (xDetC det p det.ncols ^ 2 + yDetC det p det.nrows ^ 2)) /
        zDetC det p ^ 2 := by
  rw [rMaxSq, cornerRsq_eq_div, cornerRsq_eq_div, cornerRsq_eq_div, cornerRsq_eq_div,
    max_div_div_right (sq_nonneg _), max_div_div_right (sq_nonneg _),
    max_div_div_right (sq_nonneg _)]

theorem rMaxSq_nonneg (det : EBSDDetector) (p : PC) : 0 ≤ rMaxSq det p := by
  have h : 0 ≤ cornerRsq det p 0 0 := by
    rw [cornerRsq]; positivity
  exact h.trans ((le_max_left _ _).trans (le_max_left _ _))

/-- C8: bounds monotonicity: for a detector with fixed positive shape,
pixel size and binning, and fixed canonical PCx and PCy, strictly
increasing the canonical PCz strictly decreases the squared maximal
radial gnomonic distance and hence `r_max` itself. -/
theorem r_max_strict_antitone_in_pcz (det : EBSDDetector) (p q : PC)
    (hr : 0 < det.nrows) (hc : 0 < det.ncols)
    (hpx : 0 < det.pxSize) (hbin : 0 < det.binning)
    (hx : q.x = p.x) (hy : q.y = p.y) (hz0 : 0 < p.z) (hz : p.z < q.z) :
    rMaxSq det q < rMaxSq det p ∧
    Real.sqrt (rMaxSq det q) < Real.sqrt (rMaxSq det p) := by
  have hrq : (0 : ℚ) < det.nrows := by exact_mod_cast hr
  have hcq : (0 : ℚ) < det.ncols := by exact_mod_cast hc
  have hxd : ∀ col, xDetC det q col = xDetC det p col := by
    intro col; rw [xDetC, xDetC, hx]
  have hyd : ∀ row, yDetC det q row = yDetC det p row := by
    intro row; rw [yDetC, yDetC, hy]
  have hzd : 0 < zDetC det p := by rw [zDetC]; positivity
  have hzq : zDetC det p < zDetC det q := by
    rw [zDetC, zDetC]
    have hstep : p.z * det.nrows < q.z * det.nrows :=
      mul_lt_mul_of_pos_right hz hrq
    have hstep2 : p.z * det.nrows * det.pxSize < q.z * det.nrows * det.pxSize :=
      mul_lt_mul_of_pos_right hstep hpx
    exact mul_lt_mul_of_pos_right hstep2 hbin
  have hsq : zDetC det p ^ 2 < zDetC det q ^ 2 :=
    pow_lt_pow_left₀ hzq hzd.le two_ne_zero
  have hCpos :
      0 < max (max (xDetC det p 0 ^ 2 + yDetC det p 0 ^ 2)
          (xDetC det p det.ncols ^ 2 + yDetC det p 0 ^ 2))
        (max (xDetC det p 0 ^ 2 + yDetC det p det.nrows ^ 2)
          (xDetC det p det.ncols ^ 2 + yDetC det p det.nrows ^ 2)) := by
    rcases eq_or_ne p.x 0 with h0 | h0
    · have hxnc : 0 < xDetC det p det.ncols ^ 2 := by
        have : 0 < xDetC det p det.ncols := by
          rw [xDetC, h0]; ring_nf; positivity
        positivity
      have hle : xDetC det p det.ncols ^ 2 ≤
          xDetC det p det.ncols ^ 2 + yDetC det p 0 ^ 2 :=
        le_add_of_nonneg_right (sq_nonneg _)
      exact hxnc.trans_le (hle.trans ((le_max_right _ _).trans (le_max_left _ _)))
    · have hx0 : xDetC det p 0 ≠ 0 := by
        rw [xDetC]
        have hne : p.x * det.ncols ≠ 0 := mul_ne_zero h0 hcq.ne'
        have : (0 : ℚ) - p.x * det.ncols ≠ 0 := by
          simpa using neg_ne_zero.mpr hne
        exact mul_ne_zero (mul_ne_zero this hpx.ne') hbin.ne'
      have hx0sq : 0 < xDetC det p 0 ^ 2 := sq_pos_iff.mpr hx0
      have hle : xDetC det p 0 ^ 2 ≤ xDetC det p 0 ^ 2 + yDetC det p 0 ^ 2 :=
        le_add_of_nonneg_right (sq_nonneg _)
      exact hx0sq.trans_le (hle.trans ((le_max_left _ _).trans (le_max_left _ _)))
  have hkey : rMaxSq det q < rMaxSq det p := by
    rw [rMaxSq_as_div det p, rMaxSq_as_div det q]
    simp only [hxd, hyd]
    exact div_lt_div_of_pos_left hCpos (pow_pos hzd 2) hsq
  refine ⟨hkey, ?_⟩
  exact Real.sqrt_lt_sqrt (by exact_mod_cast rMaxSq_nonneg det q)
    (by exact_mod_cast hkey)

/-- Witness for C8: a 60 x 60 detector with pixel size 70, binning 8,
PC (0.4, 0.3, z) for z = 1/2 versus z = 3/4. -/
theorem r_max_strict_antitone_in_pcz_witness :
    rMaxSq ⟨60, 60, 70, 8, 0, 70, ⟨2 / 5, 3 / 10, 1 / 2⟩⟩ ⟨2 / 5, 3 / 10, 3 / 4⟩ <
      rMaxSq ⟨60, 60, 70, 8, 0, 70, ⟨2 / 5, 3 / 10, 1 / 2⟩⟩ ⟨2 / 5, 3 / 10, 1 / 2⟩ ∧
    Real.sqrt
        (rMaxSq ⟨60, 60, 70, 8, 0, 70, ⟨2 / 5, 3 / 10, 1 / 2⟩⟩ ⟨2 / 5, 3 / 10, 3 / 4⟩) <
      Real.sqrt
        (rMaxSq ⟨60, 60, 70, 8, 0, 70, ⟨2 / 5, 3 / 10, 1 / 2⟩⟩ ⟨2 / 5, 3 / 10, 1 / 2⟩) :=
  r_max_strict_antitone_in_pcz ⟨60, 60, 70, 8, 0, 70, ⟨2 / 5, 3 / 10, 1 / 2⟩⟩
    ⟨2 / 5, 3 / 10, 1 / 2⟩ ⟨2 / 5, 3 / 10, 3 / 4⟩
    (by norm_num) (by norm_num) (by norm_num) (by norm_num)
    rfl rfl (by norm_num) (by norm_num)

end Kikuchipy

namespace Kikuchipy

/-- Modelled from the spec: one correspondence feature of the
moving-screen calibration — the pixel position of the same pattern
feature in the in (operating) image and in the out (moved) image. -/
structure Feature where
  pin : ℚ × ℚ
  pout : ℚ × ℚ
deriving DecidableEq, Repr

/-- Direction of the line through the two positions of a feature. -/
def dirOf (f : Feature) : ℚ × ℚ :=
  (f.pout.1 - f.pin.1, f.pout.2 - f.pin.2)

/-- Normal of the line through the two positions of a feature. -/
def normalOf (f : Feature) : ℚ × ℚ :=
  ((dirOf f).2, -(dirOf f).1)

/-- Squared length of the line normal. -/
def nsq (f : Feature) : ℚ :=
  (normalOf f).1 ^ 2 + (normalOf f).2 ^ 2

/-- Modelled from the spec: the normal-equation contributions of one
line for the least-squares point minimizing the total squared
perpendicular distance: the 2x2 system matrix entry `n₁²/|n|²`. -/
def mA (f : Feature) : ℚ := (normalOf f).1 ^ 2 / nsq f

/-- System matrix off-diagonal entry `n₁·n₂/|n|²` of one line. -/
def mB (f : Feature) : ℚ := (normalOf f).1 * (normalOf f).2 / nsq f

/-- System matrix entry `n₂²/|n|²` of one line. -/
def mC (f : Feature) : ℚ := (normalOf f).2 ^ 2 / nsq f

/-- Right-hand side first entry `n₁·(n·a)/|n|²` of one line, with `a`
the in-image anchor point of the line. -/
def rhs1 (f : Feature) : ℚ :=
  (normalOf f).1 * ((normalOf f).1 * f.pin.1 + (normalOf f).2 * f.pin.2) / nsq f

/-- Right-hand side second entry `n₂·(n·a)/|n|²` of one line. -/
def rhs2 (f : Feature) : ℚ :=
  (normalOf f).2 * ((normalOf f).1 * f.pin.1 + (normalOf f).2 * f.pin.2) / nsq f

/-- Sum of a per-feature quantity over the correspondence list. -/
def sumBy (g : Feature → ℚ) (l : List Feature) : ℚ :=
  (l.map g).sum

/-- Modelled from the spec: the determinant of the 2x2 least-squares
system matrix accumulated over all correspondence lines. -/
def sysDet (l : List Feature) : ℚ :=
  sumBy mA l * sumBy mC l - sumBy mB l ^ 2

/-- Modelled from the spec: the small fixed epsilon below which the
system determinant is treated as singular. -/
def singularEps : ℚ := 1 / 10 ^ 12

/-- Modelled from the spec: the calibration failure kinds —
`InsufficientCorrespondences` for fewer than 2 pairs and
`SingularCalibration` for a near-parallel line system. -/
inductive CalibError
  | insufficientCorrespondences
  | singularCalibration
deriving DecidableEq, Repr

/-- Modelled from the spec: the `(PCx, PCy)` estimation of the
moving-screen calibrator — the point minimizing the total squared
perpendicular distance to the correspondence lines, solved exactly from
the 2x2 normal equations; fewer than 2 pairs raise
`InsufficientCorrespondences`, a system determinant below the fixed
epsilon raises `SingularCalibration`, both synchronously. -/
def solvePC (l : List Feature) : Except CalibError (ℚ × ℚ) :=
  if l.length < 2 then Except.error CalibError.insufficientCorrespondences
  else if |sysDet l| < singularEps then Except.error CalibError.singularCalibration
  else Except.ok
    ((sumBy rhs1 l * sumBy mC l - sumBy rhs2 l * sumBy mB l) / sysDet l,
     (sumBy mA l * sumBy rhs2 l - sumBy mB l * sumBy rhs1 l) / sysDet l)

/-- Squared pixel distance between two points. -/
def sqDist (a b : ℚ × ℚ) : ℚ :=
  (a.1 - b.1) ^ 2 + (a.2 - b.2) ^ 2

/-- Modelled from the spec: the per-pair detector-distance estimate
`DD_ij = Δz / (L_out/L_in − 1)` with `L_in`, `L_out` the pixel
distances of two features within the in and the out image. -/
noncomputable def ddPair (dz : ℚ) (f g : Feature) : ℝ :=
  (dz : ℝ) /
    (Real.sqrt (sqDist f.pout g.pout) / Real.sqrt (sqDist f.pin g.pin) - 1)

/-- All distinct (unordered) feature pairs of the correspondence list. -/
def featurePairs : List Feature → List (Feature × Feature)
  | [] => []
  | f :: rest => rest.map (fun g => (f, g)) ++ featurePairs rest

/-- Modelled from the spec: the set of per-pair DD estimates. -/
noncomputable def ddAll (dz : ℚ) (l : List Feature) : List ℝ :=
  (featurePairs l).map fun fg => ddPair dz fg.1 fg.2

/-- Modelled from the spec: the mean of the per-pair DD estimates,
reported as the detector distance. -/
noncomputable def ddMean (dz : ℚ) (l : List Feature) : ℝ :=
  (ddAll dz l).sum / (ddAll dz l).length

/-- Modelled from the spec: when the pixel size is known,
`PCz = DD / (n_rows · pixel_size · binning)`. -/
noncomputable def pczMovingScreen (dz : ℚ) (l : List Feature)
    (nrows : ℕ) (delta b : ℚ) : ℝ :=
  ddMean dz l / ((nrows : ℝ) * (delta : ℝ) * (b : ℝ))

/-- A feature is algebraically consistent with ground-truth PC pixel
position `q` and dilation ratio `k = (DD + Δz)/DD` when its out-image
position is the dilation of its in-image position about `q`. -/
def consistentWith (q : ℚ × ℚ) (k : ℚ) (f : Feature) : Prop :=
  f.pout.1 - q.1 = k * (f.pin.1 - q.1) ∧ f.pout.2 - q.2 = k * (f.pin.2 - q.2)

theorem normal_dot_zero (f : Feature) (q : ℚ × ℚ) (k : ℚ)
    (h : consistentWith q k f) :
    (normalOf f).1 * (q.1 - f.pin.1) + (normalOf f).2 * (q.2 - f.pin.2) = 0 := by
  obtain ⟨h1, h2⟩ := h
  simp only [normalOf, dirOf]
  linear_combination (q.1 - f.pin.1) * h2 - (q.2 - f.pin.2) * h1

theorem feature_normal_eqs (f : Feature) (q : ℚ × ℚ) (k : ℚ)
    (h : consistentWith q k f) :
    mA f * q.1 + mB f * q.2 = rhs1 f ∧ mB f * q.1 + mC f * q.2 = rhs2 f := by
  have hd := normal_dot_zero f q k h
  rcases eq_or_ne (nsq f) 0 with h0 | h0
  · rw [mA, mB, mC, rhs1, rhs2, h0]
    simp
  · constructor
    · rw [mA, mB, rhs1]
      field_simp
      linear_combination (normalOf f).1 * hd
    · rw [mB, mC, rhs2]
      field_simp
      linear_combination (normalOf f).2 * hd

theorem sum_normal_eqs (q : ℚ × ℚ) (k : ℚ) (l : List Feature)
    (h : ∀ f ∈ l, consistentWith q k f) :
    sumBy mA l * q.1 + sumBy mB l * q.2 = sumBy rhs1 l ∧
    sumBy mB l * q.1 + sumBy mC l * q.2 = sumBy rhs2 l := by
  induction l with
  | nil => simp [sumBy]
  | cons f t ih =>
    have hf := feature_normal_eqs f q k (h f (List.mem_cons_self f t))
    have ht := ih fun g hg => h g (List.mem_cons_of_mem f hg)
    simp only [sumBy, List.map_cons, List.sum_cons] at ht ⊢
    exact ⟨by linear_combination hf.1 + ht.1, by linear_combination hf.2 + ht.2⟩

end Kikuchipy

namespace Kikuchipy

theorem singularEps_pos : (0 : ℚ) < singularEps := by
  norm_num [singularEps]

theorem solvePC_exact (l : List Feature) (q : ℚ × ℚ)
    (hlen : 2 ≤ l.length) (hdet : singularEps ≤ |sysDet l|)
    (heq1 : sumBy mA l * q.1 + sumBy mB l * q.2 = sumBy rhs1 l)
    (heq2 : sumBy mB l * q.1 + sumBy mC l * q.2 = sumBy rhs2 l) :
    solvePC l = Except.ok q := by
  have hd0 : sysDet l ≠ 0 := by
    intro h
    rw [h, abs_zero] at hdet
    exact absurd hdet (not_le.mpr singularEps_pos)
  have hx : (sumBy rhs1 l * sumBy mC l - sumBy rhs2 l * sumBy mB l) / sysDet l = q.1 := by
    rw [div_eq_iff hd0, sysDet]
    linear_combination sumBy mB l * heq2 - sumBy mC l * heq1
  have hy : (sumBy mA l * sumBy rhs2 l - sumBy mB l * sumBy rhs1 l) / sysDet l = q.2 := by
    rw [div_eq_iff hd0, sysDet]
    linear_combination sumBy mB l * heq1 - sumBy mA l * heq2
  rw [solvePC, if_neg (by omega), if_neg (not_lt.mpr hdet)]
  exact congrArg Except.ok (Prod.ext hx hy)

theorem det2_identity (a b c d A B : ℚ) (hA : A ≠ 0) (hB : B ≠ 0) :
    (a ^ 2 / A + c ^ 2 / B) * (b ^ 2 / A + d ^ 2 / B) -
      (a * b / A + c * d / B) ^ 2 = (a * d - b * c) ^ 2 / (A * B) := by
  field_simp
  ring

theorem sysDet_pair_parallel (f g : Feature)
    (hf : nsq f ≠ 0) (hg : nsq g ≠ 0)
    (hpar : (dirOf f).1 * (dirOf g).2 - (dirOf f).2 * (dirOf g).1 = 0) :
    sysDet [f, g] = 0 := by
  have hid := det2_identity (normalOf f).1 (normalOf f).2 (normalOf g).1
    (normalOf g).2 (nsq f) (nsq g) hf hg
  have hsum : sysDet [f, g] =
      ((normalOf f).1 ^ 2 / nsq f + (normalOf g).1 ^ 2 / nsq g) *
        ((normalOf f).2 ^ 2 / nsq f + (normalOf g).2 ^ 2 / nsq g) -
      ((normalOf f).1 * (normalOf f).2 / nsq f +
        (normalOf g).1 * (normalOf g).2 / nsq g) ^ 2 := by
    simp [sysDet, sumBy, mA, mB, mC]
  have hcross : (normalOf f).1 * (normalOf g).2 - (normalOf f).2 * (normalOf g).1 = 0 := by
    simp only [normalOf]
    linear_combination hpar
  rw [hsum, hid, hcross]
  simp

/-- C6: calibration failure behaviour: with fewer than 2 correspondence
pairs the moving-screen calibrator raises
`InsufficientCorrespondences`; with a system matrix determinant below
the fixed epsilon — in particular with two exactly parallel
nondegenerate correspondence lines, whose determinant is exactly zero —
it raises `SingularCalibration` synchronously instead of returning an
ill-conditioned result. -/
theorem calibration_failure_behaviour :
    (∀ l : List Feature, l.length < 2 →
      solvePC l = Except.error CalibError.insufficientCorrespondences) ∧
    (∀ l : List Feature, 2 ≤ l.length → |sysDet l| < singularEps →
      solvePC l = Except.error CalibError.singularCalibration) ∧
    (∀ f g : Feature, nsq f ≠ 0 → nsq g ≠ 0 →
      (dirOf f).1 * (dirOf g).2 - (dirOf f).2 * (dirOf g).1 = 0 →
      solvePC [f, g] = Except.error CalibError.singularCalibration) := by
  refine ⟨fun l h => ?_, fun l hlen hdet => ?_, fun f g hf hg hpar => ?_⟩
  · rw [solvePC, if_pos h]
  · rw [solvePC, if_neg (by omega), if_pos hdet]
  · have hdet0 : |sysDet [f, g]| < singularEps := by
      rw [sysDet_pair_parallel f g hf hg hpar, abs_zero]
      exact singularEps_pos
    rw [solvePC, if_neg (by simp), if_pos hdet0]

/-- Witness for C6: the empty correspondence list, and the two exactly
parallel horizontal lines through ((0,0),(1,0)) and ((0,1),(1,1)). -/
theorem calibration_failure_behaviour_witness :
    solvePC [] = Except.error CalibError.insufficientCorrespondences ∧
    solvePC [⟨(0, 0), (1, 0)⟩, ⟨(0, 1), (1, 1)⟩] =
      Except.error CalibError.singularCalibration :=
  ⟨calibration_failure_behaviour.1 [] (by decide),
    calibration_failure_behaviour.2.2 ⟨(0, 0), (1, 0)⟩ ⟨(0, 1), (1, 1)⟩
      (by norm_num [nsq, normalOf, dirOf])
      (by norm_num [nsq, normalOf, dirOf])
      (by norm_num [dirOf])⟩

end Kikuchipy

namespace Kikuchipy

theorem featurePairs_mem {x : Feature × Feature} :
    ∀ {l : List Feature}, x ∈ featurePairs l → x.1 ∈ l ∧ x.2 ∈ l := by
  intro l
  induction l with
  | nil => simp [featurePairs]
  | cons f t ih =>
    intro hx
    rcases List.mem_append.1 hx with h1 | h2
    · obtain ⟨g, hg, rfl⟩ := List.mem_map.1 h1
      exact ⟨List.mem_cons_self f t, List.mem_cons_of_mem f hg⟩
    · obtain ⟨ha, hb⟩ := ih h2
      exact ⟨List.mem_cons_of_mem f ha, List.mem_cons_of_mem f hb⟩

theorem featurePairs_pairwise {R : Feature → Feature → Prop} :
    ∀ {l : List Feature}, l.Pairwise R →
      ∀ x ∈ featurePairs l, R x.1 x.2 := by
  intro l
  induction l with
  | nil => simp [featurePairs]
  | cons f t ih =>
    intro h x hx
    rw [List.pairwise_cons] at h
    rcases List.mem_append.1 hx with h1 | h2
    · obtain ⟨g, hg, rfl⟩ := List.mem_map.1 h1
      exact h.1 g hg
    · exact ih h.2 x h2

theorem featurePairs_ne_nil {l : List Feature} (h : 2 ≤ l.length) :
    featurePairs l ≠ [] := by
  match l with
  | f :: g :: t => simp [featurePairs]

theorem sqDist_pos {a b : ℚ × ℚ} (h : a ≠ b) : 0 < sqDist a b := by
  rw [sqDist]
  rcases eq_or_ne a.1 b.1 with h1 | h1
  · have h2 : a.2 ≠ b.2 := by
      intro h2
      exact h (Prod.ext h1 h2)
    have : 0 < (a.2 - b.2) ^ 2 := sq_pos_iff.mpr (sub_ne_zero.mpr h2)
    have h1sq : (a.1 - b.1) ^ 2 = 0 := by rw [h1]; ring
    linarith
  · have : 0 < (a.1 - b.1) ^ 2 := sq_pos_iff.mpr (sub_ne_zero.mpr h1)
    have : (0 : ℚ) ≤ (a.2 - b.2) ^ 2 := sq_nonneg _
    linarith

theorem ddPair_exact (dz DD : ℚ) (q : ℚ × ℚ) (f g : Feature)
    (hDD : 0 < DD) (hdz : 0 < dz)
    (hf : consistentWith q ((DD + dz) / DD) f)
    (hg : consistentWith q ((DD + dz) / DD) g)
    (hne : f.pin ≠ g.pin) :
    ddPair dz f g = DD := by
  set k : ℚ := (DD + dz) / DD with hk
  have hk1 : 1 < k := by
    rw [hk, lt_div_iff₀ hDD]
    linarith
  obtain ⟨hf1, hf2⟩ := hf
  obtain ⟨hg1, hg2⟩ := hg
  have hout : sqDist f.pout g.pout = k ^ 2 * sqDist f.pin g.pin := by
    have e1 : f.pout.1 - g.pout.1 = k * (f.pin.1 - g.pin.1) := by
      linear_combination hf1 - hg1
    have e2 : f.pout.2 - g.pout.2 = k * (f.pin.2 - g.pin.2) := by
      linear_combination hf2 - hg2
    rw [sqDist, sqDist, e1, e2]
    ring
  have hin : 0 < sqDist f.pin g.pin := sqDist_pos hne
  have hinR : (0 : ℝ) < (sqDist f.pin g.pin : ℝ) := by exact_mod_cast hin
  have hkR : (0 : ℝ) < (k : ℝ) := by
    have : (0 : ℚ) < k := by linarith
    exact_mod_cast this
  have hsq : Real.sqrt (sqDist f.pout g.pout) =
      (k : ℝ) * Real.sqrt (sqDist f.pin g.pin) := by
    have houtR : ((sqDist f.pout g.pout : ℚ) : ℝ) =
        ((k : ℝ)) ^ 2 * ((sqDist f.pin g.pin : ℚ) : ℝ) := by
      exact_mod_cast congrArg (fun r : ℚ => (r : ℝ)) hout
    rw [houtR, Real.sqrt_mul (by positivity), Real.sqrt_sq hkR.le]
  rw [ddPair, hsq, mul_div_assoc,
    div_self (Real.sqrt_pos.mpr hinR).ne', mul_one]
  have hkm : (k : ℝ) - 1 = (dz : ℝ) / (DD : ℝ) := by
    rw [hk]
    push_cast
    field_simp
  rw [hkm]
  have hDDR : (DD : ℝ) ≠ 0 := by
    have : (0 : ℚ) < DD := hDD
    exact_mod_cast hDD.ne'
  have hdzR : (dz : ℝ) ≠ 0 := by exact_mod_cast hdz.ne'
  field_simp

theorem mean_const (xs : List ℝ) (v : ℝ) (hne : xs ≠ [])
    (h : ∀ x ∈ xs, x = v) : xs.sum / xs.length = v := by
  have hl : xs = List.replicate xs.length v := List.eq_replicate_length.mpr h
  have hn : (xs.length : ℝ) ≠ 0 := by
    have : xs.length ≠ 0 := by
      simpa using List.length_pos.mpr hne |>.ne'
    exact_mod_cast this
  calc xs.sum / xs.length
      = ((List.replicate xs.length v).sum) / xs.length := by rw [← hl]
    _ = (xs.length • v) / xs.length := by rw [List.sum_replicate]
    _ = ((xs.length : ℝ) * v) / xs.length := by rw [nsmul_eq_mul]
    _ = v := by field_simp

end Kikuchipy

namespace Kikuchipy

/-- C5: moving-screen calibration exactness: for any ground-truth PC
pixel position `q` and detector distance `DD > 0`, and correspondence
features generated algebraically consistent with that PC and DD (the
out-image positions are the dilation of the in-image positions about
`q` with ratio `(DD + Δz)/DD`), the calibrator recovers `q` exactly
(hence within 1e-6), the mean of the per-pair estimates
`DD_ij = Δz/(L_out/L_in − 1)` over distinct feature pairs equals `DD`
exactly, and with a known pixel size the reported
`PCz = DD/(n_rows · pixel_size · binning)`. -/
theorem moving_screen_calibration_exact (q : ℚ × ℚ) (DD dz : ℚ)
    (l : List Feature) (nrows : ℕ) (delta b : ℚ)
    (hDD : 0 < DD) (hdz : 0 < dz)
    (hcons : ∀ f ∈ l, consistentWith q ((DD + dz) / DD) f)
    (hlen : 2 ≤ l.length)
    (hdet : singularEps ≤ |sysDet l|)
    (hdist : l.Pairwise fun f g => f.pin ≠ g.pin) :
    solvePC l = Except.ok q ∧
    ddMean dz l = DD ∧
    pczMovingScreen dz l nrows delta b =
      (DD : ℝ) / ((nrows : ℝ) * (delta : ℝ) * (b : ℝ)) := by
  have hsums := sum_normal_eqs q ((DD + dz) / DD) l hcons
  have hmean : ddMean dz l = DD := by
    rw [ddMean]
    apply mean_const
    · rw [ddAll]
      simp only [ne_eq, List.map_eq_nil_iff]
      exact featurePairs_ne_nil hlen
    · intro x hx
      rw [ddAll] at hx
      obtain ⟨fg, hfg, rfl⟩ := List.mem_map.1 hx
      obtain ⟨h1, h2⟩ := featurePairs_mem hfg
      exact ddPair_exact dz DD q fg.1 fg.2 hDD hdz (hcons fg.1 h1)
        (hcons fg.2 h2) (featurePairs_pairwise hdist fg hfg)
  refine ⟨solvePC_exact l q hlen hdet hsums.1 hsums.2, hmean, ?_⟩
  rw [pczMovingScreen, hmean]

/-- Witness for C5: ground truth `q = (0,0)`, `DD = 1`, `Δz = 1`
(dilation ratio 2), features ((1,0),(2,0)) and ((0,1),(0,2)), with
`n_rows = 4`, pixel size 1/8 and binning 2. -/
theorem moving_screen_calibration_exact_witness :
    solvePC [⟨(1, 0), (2, 0)⟩, ⟨(0, 1), (0, 2)⟩] = Except.ok (0, 0) ∧
    ddMean 1 [⟨(1, 0), (2, 0)⟩, ⟨(0, 1), (0, 2)⟩] = (1 : ℚ) ∧
    pczMovingScreen 1 [⟨(1, 0), (2, 0)⟩, ⟨(0, 1), (0, 2)⟩] 4 (1 / 8) 2 =
      ((1 : ℚ) : ℝ) / (((4 : ℕ) : ℝ) * ((1 / 8 : ℚ) : ℝ) * ((2 : ℚ) : ℝ)) :=
  moving_screen_calibration_exact (0, 0) 1 1
    [⟨(1, 0), (2, 0)⟩, ⟨(0, 1), (0, 2)⟩] 4 (1 / 8) 2
    (by norm_num) (by norm_num)
    (by
      intro f hf
      fin_cases hf <;> constructor <;> norm_num [consistentWith])
    (by decide)
    (by norm_num [sysDet, sumBy, mA, mB, mC, nsq, normalOf, dirOf, singularEps])
    (by decide)

end Kikuchipy

namespace Kikuchipy

/-- An axis-aligned rectangle in the gnomonic plane. -/
structure Rect where
  xmin : ℚ
  xmax : ℚ
  ymin : ℚ
  ymax : ℚ
deriving DecidableEq, Repr

/-- Modelled from the spec: the gnomonic bounds rectangle of a
navigation point. -/
def detectorRect (det : EBSDDetector) (p : PC) : Rect :=
  ⟨(gnomonicBounds det p).1, (gnomonicBounds det p).2.1,
   (gnomonicBounds det p).2.2.1, (gnomonicBounds det p).2.2.2⟩

/-- Whether a gnomonic point lies within a bounds rectangle. -/
def inRect (r : Rect) (pt : ℚ × ℚ) : Bool :=
  decide (r.xmin ≤ pt.1 ∧ pt.1 ≤ r.xmax ∧ r.ymin ≤ pt.2 ∧ pt.2 ≤ r.ymax)

/-- Candidate intersection points of the plane-trace line
`n₁·x + n₂·y + n₃ = 0` with the four boundary edge lines of a
rectangle. -/
def edgeCandidates (n : ℚ × ℚ × ℚ) (r : Rect) : List (ℚ × ℚ) :=
  (if n.2.1 ≠ 0 then
    [(r.xmin, -(n.2.2 + n.1 * r.xmin) / n.2.1),
     (r.xmax, -(n.2.2 + n.1 * r.xmax) / n.2.1)]
  else []) ++
  (if n.1 ≠ 0 then
    [(-(n.2.2 + n.2.1 * r.ymin) / n.1, r.ymin),
     (-(n.2.2 + n.2.1 * r.ymax) / n.1, r.ymax)]
  else [])

/-- Modelled from the spec: clipping of the infinite plane-trace line
against the bounds rectangle: the distinct candidate edge intersections
lying within the rectangle give the two endpoints of the visible
segment; fewer than two means no visible segment. -/
def clipLine (n : ℚ × ℚ × ℚ) (r : Rect) : Option ((ℚ × ℚ) × (ℚ × ℚ)) :=
  match ((edgeCandidates n r).filter (inRect r)).dedup with
  | p0 :: p1 :: _ => some (p0, p1)
  | _ => none

/-- Modelled from the spec: the fixed detector-facing sign convention
on the rotated z component (the spec leaves the concrete sign to the
worked fixtures; it is fixed here once, as positivity). -/
def facesDetector (nz : ℚ) : Bool :=
  decide (0 < nz)

/-- Modelled from the spec: the inverse of the detector-to-gnomonic map
of a navigation point, sending a gnomonic point back to detector-pixel
coordinates `(col, row)`. -/
def gnToDet (det : EBSDDetector) (p : PC) (g : ℚ × ℚ) : ℚ × ℚ :=
  (p.x * det.ncols + g.1 * p.z * det.nrows,
   p.y * det.nrows - g.2 * p.z * det.nrows)

/-- The `(y0, x0, y1, x1)` plane-trace output tuple assembled from the
two clipped endpoints. -/
def traceTuple (e : (ℚ × ℚ) × (ℚ × ℚ)) : ℚ × ℚ × ℚ × ℚ :=
  (e.1.2, e.1.1, e.2.2, e.2.1)

/-- Apply a point map to both endpoints of a segment. -/
def mapEndpoints (h : ℚ × ℚ → ℚ × ℚ) (e : (ℚ × ℚ) × (ℚ × ℚ)) :
    (ℚ × ℚ) × (ℚ × ℚ) :=
  (h e.1, h e.2)

/-- Modelled from the spec: the per-entry band simulation result — a
visibility flag with optional trace tuples in gnomonic and in
detector-pixel coordinates (the absent coordinates of an invisible band
model the not-a-number sentinel of the implementation). -/
structure BandResult where
  visible : Bool
  gnomonicTrace : Option (ℚ × ℚ × ℚ × ℚ)
  detectorTrace : Option (ℚ × ℚ × ℚ × ℚ)
deriving DecidableEq, Repr

/-- Modelled from the spec: the errors the simulator may raise
(`InvalidGeometry`); geometric invisibility is not among them. -/
inductive SimError
  | invalidGeometry
deriving DecidableEq, Repr

/-- Modelled from the spec: the per-(navigation point, band) entry of
the geometrical simulation: clip the plane trace of the detector-frame
plane normal against the gnomonic bounds, require the detector-facing
sign on the normal's z component, and report visibility with the trace
endpoint tuples, never an error. -/
def simulateBand (det : EBSDDetector) (p : PC) (n : ℚ × ℚ × ℚ) :
    Except SimError BandResult :=
  match clipLine n (detectorRect det p), facesDetector n.2.2 with
  | some e, true =>
    Except.ok ⟨true, some (traceTuple e),
      some (traceTuple (mapEndpoints (gnToDet det p) e))⟩
  | some _, false => Except.ok ⟨false, none, none⟩
  | none, _ => Except.ok ⟨false, none, none⟩

/-- Modelled from the spec: the per-entry zone-axis result — a
visibility flag with an optional gnomonic point and an optional
detector-pixel point. -/
structure ZoneAxisResult where
  visible : Bool
  gnomonicPoint : Option (ℚ × ℚ)
  detectorPoint : Option (ℚ × ℚ)
deriving DecidableEq, Repr

/-- Modelled from the spec: the per-(navigation point, zone axis)
entry: the rotated direction projects to the gnomonic point
`(d_x/d_z, d_y/d_z)` when `d_z` has the detector-facing sign and the
point lies within the gnomonic bounds; otherwise the entry is
invisible, never an error. -/
def simulateZoneAxis (det : EBSDDetector) (p : PC) (d : ℚ × ℚ × ℚ) :
    Except SimError ZoneAxisResult :=
  if facesDetector d.2.2 then
    if inRect (detectorRect det p) (d.1 / d.2.2, d.2.1 / d.2.2) then
      Except.ok ⟨true, some (d.1 / d.2.2, d.2.1 / d.2.2),
        some (gnToDet det p (d.1 / d.2.2, d.2.1 / d.2.2))⟩
    else Except.ok ⟨false, none, none⟩
  else Except.ok ⟨false, none, none⟩

end Kikuchipy


namespace Kikuchipy

/-- C9: invisibility is not an error: every band and zone-axis entry of
the geometrical simulation returns a result, never a raised error; in
particular an entry whose plane trace has no intersection with the
gnomonic bounds rectangle, or whose zone-axis point is detector-facing
but out of bounds, is reported with a false visibility flag and absent
(sentinel) coordinates. -/
theorem invisibility_not_an_error (det : EBSDDetector) (p : PC)
    (n d : ℚ × ℚ × ℚ) :
    (∃ r, simulateBand det p n = Except.ok r) ∧
    (∃ s, simulateZoneAxis det p d = Except.ok s) ∧
    (clipLine n (detectorRect det p) = none →
      simulateBand det p n = Except.ok ⟨false, none, none⟩) ∧
    (facesDetector d.2.2 = true →
      inRect (detectorRect det p) (d.1 / d.2.2, d.2.1 / d.2.2) = false →
      simulateZoneAxis det p d = Except.ok ⟨false, none, none⟩) := by
  refine ⟨?_, ?_, ?_, ?_⟩
  · rcases h : clipLine n (detectorRect det p) with _ | e
    · exact ⟨⟨false, none, none⟩, by simp [simulateBand, h]⟩
    · rcases h2 : facesDetector n.2.2
      · exact ⟨⟨false, none, none⟩, by simp [simulateBand, h, h2]⟩
      · exact ⟨⟨true, some (traceTuple e),
          some (traceTuple (mapEndpoints (gnToDet det p) e))⟩,
          by simp [simulateBand, h, h2]⟩
  · rw [simulateZoneAxis]
    split_ifs <;> exact ⟨_, rfl⟩
  · intro h
    simp [simulateBand, h]
  · intro h1 h2
    simp [simulateZoneAxis, h1, h2]

/-- Witness for C9: a 2 x 2 detector with canonical PC (1/2, 1/2, 1/2)
and gnomonic bounds [-1, 1] x [-1, 1]; the trace of the plane normal
(0, 0, 1) never meets the gnomonic plane and the zone axis (100, 0, 1)
projects far outside the bounds; both entries come back as invisible
results, not errors. -/
theorem invisibility_not_an_error_witness :
    simulateBand ⟨2, 2, 1, 1, 0, 0, ⟨1 / 2, 1 / 2, 1 / 2⟩⟩
        ⟨1 / 2, 1 / 2, 1 / 2⟩ (0, 0, 1) =
      Except.ok ⟨false, none, none⟩ ∧
    simulateZoneAxis ⟨2, 2, 1, 1, 0, 0, ⟨1 / 2, 1 / 2, 1 / 2⟩⟩
        ⟨1 / 2, 1 / 2, 1 / 2⟩ (100, 0, 1) =
      Except.ok ⟨false, none, none⟩ :=
  ⟨(invisibility_not_an_error ⟨2, 2, 1, 1, 0, 0, ⟨1 / 2, 1 / 2, 1 / 2⟩⟩
      ⟨1 / 2, 1 / 2, 1 / 2⟩ (0, 0, 1) (100, 0, 1)).2.2.1
      (by norm_num [clipLine, edgeCandidates]),
    (invisibility_not_an_error ⟨2, 2, 1, 1, 0, 0, ⟨1 / 2, 1 / 2, 1 / 2⟩⟩
      ⟨1 / 2, 1 / 2, 1 / 2⟩ (0, 0, 1) (100, 0, 1)).2.2.2
      (by norm_num [facesDetector])
      (by
        norm_num [inRect, detectorRect, gnomonicBounds, xGn, yGn, xDetC,
          yDetC, zDetC, min_def, max_def])⟩

/-- C10: output coordinate ordering: a visible band's plane-trace
endpoints `(x0, y0)` and `(x1, y1)` are returned as the 4-tuple
`(y0, x0, y1, x1)`, in gnomonic and (through the inverse gnomonic map)
in detector-pixel coordinates alike, while a visible zone axis's
detector coordinates are returned as an `(x, y)` pair. -/
theorem output_coordinate_ordering (det : EBSDDetector) (p : PC)
    (n d : ℚ × ℚ × ℚ) (x0 y0 x1 y1 : ℚ)
    (hclip : clipLine n (detectorRect det p) = some ((x0, y0), (x1, y1)))
    (hface : facesDetector n.2.2 = true)
    (hdf : facesDetector d.2.2 = true)
    (hin : inRect (detectorRect det p) (d.1 / d.2.2, d.2.1 / d.2.2) = true) :
    simulateBand det p n = Except.ok ⟨true,
      some (y0, x0, y1, x1),
      some ((gnToDet det p (x0, y0)).2, (gnToDet det p (x0, y0)).1,
        (gnToDet det p (x1, y1)).2, (gnToDet det p (x1, y1)).1)⟩ ∧
    simulateZoneAxis det p d = Except.ok ⟨true,
      some (d.1 / d.2.2, d.2.1 / d.2.2),
      some ((gnToDet det p (d.1 / d.2.2, d.2.1 / d.2.2)).1,
        (gnToDet det p (d.1 / d.2.2, d.2.1 / d.2.2)).2)⟩ := by
  constructor
  · simp [simulateBand, hclip, hface, traceTuple, mapEndpoints]
  · simp [simulateZoneAxis, hdf, hin]

/-- Witness for C10: the same 2 x 2 detector; the plane normal
(2, 0, 1) clips to the vertical segment from (-1/2, -1) to (-1/2, 1)
and the zone axis (0, 0, 1) projects to the in-bounds origin. -/
theorem output_coordinate_ordering_witness :
    simulateBand ⟨2, 2, 1, 1, 0, 0, ⟨1 / 2, 1 / 2, 1 / 2⟩⟩
        ⟨1 / 2, 1 / 2, 1 / 2⟩ (2, 0, 1) =
      Except.ok ⟨true,
        some (-1, -1 / 2, 1, -1 / 2),
        some ((gnToDet ⟨2, 2, 1, 1, 0, 0, ⟨1 / 2, 1 / 2, 1 / 2⟩⟩
            ⟨1 / 2, 1 / 2, 1 / 2⟩ (-1 / 2, -1)).2,
          (gnToDet ⟨2, 2, 1, 1, 0, 0, ⟨1 / 2, 1 / 2, 1 / 2⟩⟩
            ⟨1 / 2, 1 / 2, 1 / 2⟩ (-1 / 2, -1)).1,
          (gnToDet ⟨2, 2, 1, 1, 0, 0, ⟨1 / 2, 1 / 2, 1 / 2⟩⟩
            ⟨1 / 2, 1 / 2, 1 / 2⟩ (-1 / 2, 1)).2,
          (gnToDet ⟨2, 2, 1, 1, 0, 0, ⟨1 / 2, 1 / 2, 1 / 2⟩⟩
            ⟨1 / 2, 1 / 2, 1 / 2⟩ (-1 / 2, 1)).1)⟩ ∧
    simulateZoneAxis ⟨2, 2, 1, 1, 0, 0, ⟨1 / 2, 1 / 2, 1 / 2⟩⟩
        ⟨1 / 2, 1 / 2, 1 / 2⟩ (0, 0, 1) =
      Except.ok ⟨true,
        some ((0 : ℚ) / 1, (0 : ℚ) / 1),
        some ((gnToDet ⟨2, 2, 1, 1, 0, 0, ⟨1 / 2, 1 / 2, 1 / 2⟩⟩
            ⟨1 / 2, 1 / 2, 1 / 2⟩ ((0 : ℚ) / 1, (0 : ℚ) / 1)).1,
          (gnToDet ⟨2, 2, 1, 1, 0, 0, ⟨1 / 2, 1 / 2, 1 / 2⟩⟩
            ⟨1 / 2, 1 / 2, 1 / 2⟩ ((0 : ℚ) / 1, (0 : ℚ) / 1)).2)⟩ :=
  output_coordinate_ordering ⟨2, 2, 1, 1, 0, 0, ⟨1 / 2, 1 / 2, 1 / 2⟩⟩
    ⟨1 / 2, 1 / 2, 1 / 2⟩ (2, 0, 1) (0, 0, 1) (-1 / 2) (-1) (-1 / 2) 1
    (by
      have hrect : detectorRect ⟨2, 2, 1, 1, 0, 0, ⟨1 / 2, 1 / 2, 1 / 2⟩⟩
          ⟨1 / 2, 1 / 2, 1 / 2⟩ = ⟨-1, 1, -1, 1⟩ := by
        norm_num [detectorRect, gnomonicBounds, xGn, yGn, xDetC, yDetC,
          zDetC, min_def, max_def]
      rw [hrect, clipLine]
      norm_num [edgeCandidates, inRect, List.filter, List.dedup, List.pwFilter])
    (by norm_num [facesDetector])
    (by norm_num [facesDetector])
    (by
      norm_num [inRect, detectorRect, gnomonicBounds, xGn, yGn, xDetC,
        yDetC, zDetC, min_def, max_def])

end Kikuchipy
